import Mathlib

/-!
# Verification of the linea_user_analytics pipeline

Shallow embedding of the extraction, transformation, load and validation
code of the repository, together with proofs and refutations of the
specified properties.  Machine integers of the source are modelled as
`Nat`/`Int` (Python integers are unbounded), fallible code returns
`Except`/`Option`, and the stateful database client is modelled by
explicit state passing.
-/

/-!
## Block-range chunking (`get_all_logs`, src/src/extract/extract_logs_from_etherscan.py)

The loop

    while current_block <= to_block:
        chunk_end = min(current_block + chunk_size - 1, to_block)
        ... get_logs_for_range(address, topic0, current_block, chunk_end) ...
        current_block = chunk_end + 1

is embedded as the list of `(current_block, chunk_end)` pairs it produces.
For `chunk_size = 0` the Python loop would not terminate; the embedding
returns `[]` in that case (all claims assume a positive chunk size).
-/

/-- The sequence of `(current_block, chunk_end)` ranges produced by the
chunking loop of `get_all_logs`. -/
def chunkRanges (cur to_block csize : ℕ) : List (ℕ × ℕ) :=
  if h : cur ≤ to_block ∧ 0 < csize then
    (cur, min (cur + csize - 1) to_block) ::
      chunkRanges (min (cur + csize - 1) to_block + 1) to_block csize
  else []
termination_by to_block + 1 - cur
decreasing_by
  simp_wf
  omega

/-- The first range produced starts at the current block. -/
theorem chunkRanges_head1 (cur t c : ℕ) :
    ∀ p ∈ (chunkRanges cur t c).head?, p.1 = cur := by
  rw [chunkRanges]
  split
  · intro p hp
    simp only [List.head?_cons, Option.mem_def, Option.some.injEq] at hp
    subst hp
    rfl
  · intro p hp
    simp at hp

/-- Full specification of the chunking loop, proved by induction on the
number of remaining blocks. -/
theorem chunkRanges_spec (c : ℕ) (hc : 0 < c) :
    ∀ n cur t, t + 1 - cur ≤ n → cur ≤ t →
      ((chunkRanges cur t c).map (fun p => List.range' p.1 (p.2 + 1 - p.1))).flatten
          = List.range' cur (t + 1 - cur)
        ∧ List.Chain' (fun p q => q.1 = p.2 + 1) (chunkRanges cur t c)
        ∧ (∀ p ∈ chunkRanges cur t c, p.1 ≤ p.2 ∧ p.2 + 1 - p.1 ≤ c)
        ∧ (chunkRanges cur t c).length = (t - cur + c) / c := by
  intro n
  induction n with
  | zero => intro cur t h1 h2; omega
  | succ n ih =>
    intro cur t h1 h2
    rw [chunkRanges, dif_pos ⟨h2, hc⟩]
    by_cases hlast : t ≤ cur + c - 1
    · have he : min (cur + c - 1) t = t := by omega
      rw [he]
      have hempty : chunkRanges (t + 1) t c = [] := by
        rw [chunkRanges, dif_neg]
        omega
      rw [hempty]
      refine ⟨?_, ?_, ?_, ?_⟩
      · simp
      · simp
      · intro p hp
        simp only [List.mem_singleton] at hp
        subst hp
        constructor
        · exact h2
        · simp only
          omega
      · have hd : (t - cur + c) / c = (t - cur) / c + 1 := Nat.add_div_right _ hc
        have hz : (t - cur) / c = 0 := Nat.div_eq_of_lt (by omega)
        simp only [List.length_cons, List.length_nil]
        omega
    · have he : min (cur + c - 1) t = cur + c - 1 := by omega
      rw [he]
      have hrec := ih (cur + c - 1 + 1) t (by omega) (by omega)
      obtain ⟨hj, hch, hb, hl⟩ := hrec
      refine ⟨?_, ?_, ?_, ?_⟩
      · simp only [List.map_cons, List.flatten_cons, hj]
        have harr := List.range'_append cur (cur + c - 1 + 1 - cur) (t + 1 - (cur + c - 1 + 1)) 1
        have h3 : cur + 1 * (cur + c - 1 + 1 - cur) = cur + c - 1 + 1 := by omega
        rw [h3] at harr
        rw [harr]
        congr 1
        omega
      · rw [List.chain'_cons']
        refine ⟨?_, hch⟩
        intro q hq
        have := chunkRanges_head1 (cur + c - 1 + 1) t c q hq
        simp only
        omega
      · intro p hp
        rcases List.mem_cons.1 hp with hp | hp
        · subst hp
          refine ⟨by omega, by simp only; omega⟩
        · exact hb p hp
      · simp only [List.length_cons, hl]
        have h5 : t - (cur + c - 1 + 1) + c = t - cur := by omega
        have h6 : (t - cur + c) / c = (t - cur) / c + 1 := Nat.add_div_right _ hc
        have h7 : t - cur = t - cur - c + c := by omega
        have h8 : (t - cur - c + c) / c = (t - cur - c) / c + 1 := Nat.add_div_right _ hc
        rw [h5]
        omega

/-- C1: for every `from_block ≤ to_block` and `chunk_size > 0`, the ranges
produced by the chunking loop in `get_all_logs` concatenate exactly to the
interval `[from_block, to_block]` (hence are contiguous, non-overlapping,
ascending, and cover it exactly once), each range is well-formed with
length at most `chunk_size`, and the number of ranges is
`ceil((to_block - from_block + 1) / chunk_size)` (written with natural
division as `(to_block - from_block + chunk_size) / chunk_size`). -/
theorem get_all_logs_chunking_correct (f t c : ℕ) (hft : f ≤ t) (hc : 0 < c) :
    ((chunkRanges f t c).map (fun p => List.range' p.1 (p.2 + 1 - p.1))).flatten
        = List.range' f (t + 1 - f)
      ∧ List.Chain' (fun p q => q.1 = p.2 + 1) (chunkRanges f t c)
      ∧ (∀ p ∈ chunkRanges f t c, p.1 ≤ p.2 ∧ p.2 + 1 - p.1 ≤ c)
      ∧ (chunkRanges f t c).length = (t - f + c) / c :=
  chunkRanges_spec c hc (t + 1 - f) f t (by omega) hft

/-- Witness for C1 at `from_block = 0`, `to_block = 5`, `chunk_size = 2`. -/
theorem get_all_logs_chunking_correct_witness :
    (0 : ℕ) ≤ 5 ∧ (0 : ℕ) < 2 ∧
      (((chunkRanges 0 5 2).map (fun p => List.range' p.1 (p.2 + 1 - p.1))).flatten
          = List.range' 0 (5 + 1 - 0)
        ∧ List.Chain' (fun p q => q.1 = p.2 + 1) (chunkRanges 0 5 2)
        ∧ (∀ p ∈ chunkRanges 0 5 2, p.1 ≤ p.2 ∧ p.2 + 1 - p.1 ≤ 2)
        ∧ (chunkRanges 0 5 2).length = (5 - 0 + 2) / 2) :=
  ⟨by decide, by decide, get_all_logs_chunking_correct 0 5 2 (by decide) (by decide)⟩

/-- C8 counterexample: with `from_block = 5 > 3 = to_block` the chunking
loop of `get_all_logs` produces no ranges and the function returns
normally with an empty result; no `InvalidRangeError` (which does not
exist anywhere in the code) is raised. -/
theorem get_all_logs_empty_range_counterexample :
    chunkRanges 5 3 100000 = [] ∧ (3 : ℕ) < 5 := by
  constructor
  · rw [chunkRanges, dif_neg]
    omega
  · decide

/-- C8 amended: when `from_block > to_block` the chunked extraction
produces no ranges and returns an empty result instead of failing. -/
theorem get_all_logs_empty_range (f t c : ℕ) (h : t < f) :
    chunkRanges f t c = [] := by
  rw [chunkRanges, dif_neg]
  omega

/-- Witness for the amended C8 at `from_block = 7`, `to_block = 2`. -/
theorem get_all_logs_empty_range_witness :
    (2 : ℕ) < 7 ∧ chunkRanges 7 2 10 = [] :=
  ⟨by decide, get_all_logs_empty_range 7 2 10 (by decide)⟩

/-!
## Event data decoding (`decode_data`, src/src/transform/transform_logs.py)

`decode_data` is embedded over `Option (List Char)`: `none` models a
missing (`NaN`) value, a list of characters models the payload string.
Python `int(s, 16)` is modelled for the strings that reach it here
(substrings of a hex payload): it succeeds on a non-empty string of hex
digits and raises `ValueError` otherwise, modelled by `Option`.
An uncaught exception of `decode_data` is modelled by `Except.error`.
-/

/-- Value of a single hexadecimal digit, `none` for a non-hex character. -/
def hexVal? (ch : Char) : Option ℕ :=
  if '0' ≤ ch ∧ ch ≤ '9' then some (ch.toNat - 48)
  else if 'a' ≤ ch ∧ ch ≤ 'f' then some (ch.toNat - 87)
  else if 'A' ≤ ch ∧ ch ≤ 'F' then some (ch.toNat - 55)
  else none

/-- Big-endian accumulation of hex digits; fails on a non-hex character. -/
def parseHexAux : List Char → ℕ → Option ℕ
  | [], acc => some acc
  | ch :: cs, acc =>
    match hexVal? ch with
    | some d => parseHexAux cs (16 * acc + d)
    | none => none

/-- Model of Python `int(s, 16)` on the slices taken by `decode_data`:
fails (`ValueError`) on the empty string or a non-hex character. -/
def pyIntHex (l : List Char) : Option ℕ :=
  if l = [] then none else parseHexAux l 0

/-- Embedding of `decode_data` from `transform_logs.py`:

    if pd.isna(data_hex) or len(data_hex) < 130: return None, None, None
    data = data_hex[2:]
    fee = int(data[0:64], 16); value = int(data[64:128], 16); nonce = int(data[128:192], 16)

A raised `ValueError` (e.g. `int("", 16)` when a slice is empty) is
modelled by `Except.error`. -/
def decode_data (data_hex : Option (List Char)) :
    Except String (Option ℕ × Option ℕ × Option ℕ) :=
  match data_hex with
  | none => .ok (none, none, none)
  | some s =>
    if s.length < 130 then .ok (none, none, none)
    else
      let data := s.drop 2
      match pyIntHex ((data.drop 0).take 64), pyIntHex ((data.drop 64).take 64),
            pyIntHex ((data.drop 128).take 64) with
      | some fee, some v, some nn => .ok (some fee, some v, some nn)
      | _, _, _ => .error "ValueError"

/-- Lower-case hex character of a digit value below 16 (as in Python
`format(n, "064x")`). -/
def toHexChar (d : ℕ) : Char :=
  if d < 10 then Char.ofNat (48 + d) else Char.ofNat (87 + d)

/-- The `k` low hex digits of `m`, most significant first. -/
def hexPad : ℕ → ℕ → List Char
  | 0, _ => []
  | k + 1, m => toHexChar (m / 16 ^ k % 16) :: hexPad k m

/-- `format(m, "064x")`: a 64-hex-character big-endian zero-padded word. -/
def hexWord64 (m : ℕ) : List Char := hexPad 64 m

/-- The encoding used by `test_decode_data`: `"0x"` followed by the three
64-character words for fee, value and nonce, then arbitrary padding. -/
def encodeData (fee v nn : ℕ) (pad : List Char) : List Char :=
  '0' :: 'x' :: (hexWord64 fee ++ (hexWord64 v ++ (hexWord64 nn ++ pad)))

theorem hexVal?_toHexChar (d : ℕ) (hd : d < 16) : hexVal? (toHexChar d) = some d := by
  interval_cases d <;> decide

theorem hexPad_length (k m : ℕ) : (hexPad k m).length = k := by
  induction k with
  | zero => rfl
  | succ k ih => simp [hexPad, ih]

theorem parseHexAux_hexPad (k : ℕ) :
    ∀ acc m, parseHexAux (hexPad k m) acc = some (acc * 16 ^ k + m % 16 ^ k) := by
  induction k with
  | zero => intro acc m; simp [hexPad, parseHexAux, Nat.mod_one]
  | succ k ih =>
    intro acc m
    have hd : m / 16 ^ k % 16 < 16 := Nat.mod_lt _ (by norm_num)
    simp only [hexPad, parseHexAux, hexVal?_toHexChar _ hd, ih]
    congr 1
    have hsplit : m % (16 ^ k * 16) = m % 16 ^ k + 16 ^ k * (m / 16 ^ k % 16) :=
      Nat.mod_mul
    have hpow : (16 : ℕ) ^ (k + 1) = 16 ^ k * 16 := by ring
    rw [hpow, hsplit]
    ring

theorem pyIntHex_hexWord64 (m : ℕ) (hm : m < 16 ^ 64) :
    pyIntHex (hexWord64 m) = some m := by
  have hlen : (hexWord64 m).length = 64 := hexPad_length 64 m
  have hne : hexWord64 m ≠ [] := by
    intro h
    rw [h] at hlen
    simp at hlen
  rw [pyIntHex, if_neg hne]
  rw [hexWord64, parseHexAux_hexPad]
  rw [Nat.mod_eq_of_lt hm]
  simp

/-- C3: any triple of 256-bit integers encoded as three concatenated
64-hex-character big-endian words after `"0x"`, with arbitrary trailing
padding, is recovered exactly by `decode_data`. -/
theorem decode_data_round_trip (fee v nn : ℕ) (pad : List Char)
    (h1 : fee < 2 ^ 256) (h2 : v < 2 ^ 256) (h3 : nn < 2 ^ 256) :
    decode_data (some (encodeData fee v nn pad)) = .ok (some fee, some v, some nn) := by
  have e16 : (16 : ℕ) ^ 64 = 2 ^ 256 := by
    rw [show (16 : ℕ) = 2 ^ 4 by norm_num, ← pow_mul]
  have hf : fee < 16 ^ 64 := by rw [e16]; exact h1
  have hv : v < 16 ^ 64 := by rw [e16]; exact h2
  have hn : nn < 16 ^ 64 := by rw [e16]; exact h3
  have lf : (hexWord64 fee).length = 64 := hexPad_length 64 fee
  have lv : (hexWord64 v).length = 64 := hexPad_length 64 v
  have ln : (hexWord64 nn).length = 64 := hexPad_length 64 nn
  have hlen : (encodeData fee v nn pad).length = 194 + pad.length := by
    simp [encodeData, lf, lv, ln]
    omega
  simp only [decode_data]
  rw [if_neg (by rw [hlen]; omega)]
  have hdrop2 : (encodeData fee v nn pad).drop 2
      = hexWord64 fee ++ (hexWord64 v ++ (hexWord64 nn ++ pad)) := by
    rfl
  rw [hdrop2]
  have s1 : ((hexWord64 fee ++ (hexWord64 v ++ (hexWord64 nn ++ pad))).drop 0).take 64
      = hexWord64 fee := by
    rw [List.drop_zero, List.take_left' lf]
  have s2 : ((hexWord64 fee ++ (hexWord64 v ++ (hexWord64 nn ++ pad))).drop 64).take 64
      = hexWord64 v := by
    rw [List.drop_left' lf, List.take_left' lv]
  have s3 : ((hexWord64 fee ++ (hexWord64 v ++ (hexWord64 nn ++ pad))).drop 128).take 64
      = hexWord64 nn := by
    have : (128 : ℕ) = 64 + 64 := by norm_num
    rw [this, ← List.drop_drop, List.drop_left' lf, List.drop_left' lv,
      List.take_left' ln]
  rw [s1, s2, s3, pyIntHex_hexWord64 fee hf, pyIntHex_hexWord64 v hv,
    pyIntHex_hexWord64 nn hn]

/-- Witness for C3: `fee = 100`, `value = 10^18`, `nonce = 42` with 128
characters of zero padding, exactly as in `test_decode_data`. -/
theorem decode_data_round_trip_witness :
    (100 : ℕ) < 2 ^ 256 ∧ (10 : ℕ) ^ 18 < 2 ^ 256 ∧ (42 : ℕ) < 2 ^ 256 ∧
      decode_data (some (encodeData 100 (10 ^ 18) 42 (List.replicate 128 '0')))
        = .ok (some 100, some (10 ^ 18), some 42) :=
  ⟨by norm_num, by norm_num, by norm_num,
    decode_data_round_trip 100 (10 ^ 18) 42 (List.replicate 128 '0')
      (by norm_num) (by norm_num) (by norm_num)⟩

set_option maxRecDepth 4000 in
/-- C4: evaluation of `decode_data` at the failing input: a payload of
exactly 130 characters (`"0x"` plus 128 zeros) passes the length guard,
and `int(data[128:192], 16)` is `int("", 16)`, which raises `ValueError`
instead of returning three integers or `(None, None, None)`. -/
theorem decode_data_130_raises :
    decode_data (some ('0' :: 'x' :: List.replicate 128 '0')) = .error "ValueError" ∧
      ('0' :: 'x' :: List.replicate 128 '0').length = 130 := by
  constructor
  · rfl
  · rfl

/-!
## IEEE-754 binary64 model (for `wei / 1e18` and `int(float(s))`)

CPython represents `float` as an IEEE-754 binary64 value and both the
int-to-float conversion and `/` round their exact result to the nearest
representable value, ties to even.  A positive rational in the normal
range rounds to `m * 2^(e - 52)` where `2^e ≤ q < 2^(e+1)` and `m` is the
nearest integer (ties to even) to `q / 2^(e-52)`.  Overflow and
subnormals are outside the range of every value in this development and
are not modelled.
-/

/-- Fuelled base-2 logarithm (structural recursion so the kernel can
evaluate it). -/
def natLog2go : ℕ → ℕ → ℕ
  | 0, _ => 0
  | f + 1, m => if 2 ≤ m then natLog2go f (m / 2) + 1 else 0

/-- `⌊log₂ m⌋` for a positive natural number. -/
def natLog2 (m : ℕ) : ℕ := natLog2go m m

theorem natLog2go_spec : ∀ f m, m ≤ f → 0 < m →
    2 ^ natLog2go f m ≤ m ∧ m < 2 ^ (natLog2go f m + 1) := by
  intro f
  induction f with
  | zero => intro m h1 h2; omega
  | succ f ih =>
    intro m h1 h2
    by_cases h2m : 2 ≤ m
    · have hrec := ih (m / 2) (by omega) (by omega)
      simp only [natLog2go, if_pos h2m]
      obtain ⟨hl, hr⟩ := hrec
      constructor
      · have : 2 ^ (natLog2go f (m / 2) + 1) = 2 * 2 ^ natLog2go f (m / 2) := by ring
        rw [this]
        omega
      · have : 2 ^ (natLog2go f (m / 2) + 1 + 1) = 2 * 2 ^ (natLog2go f (m / 2) + 1) := by
          ring
        rw [this]
        omega
    · have hm1 : m = 1 := by omega
      subst hm1
      simp [natLog2go, h2m]

theorem natLog2_spec (m : ℕ) (hm : 0 < m) :
    2 ^ natLog2 m ≤ m ∧ m < 2 ^ (natLog2 m + 1) :=
  natLog2go_spec m m le_rfl hm

/-- `⌊log₂ q⌋` of a positive rational, computed with natural-number
arithmetic only: for `q = a / b` and `k = natLog2 b + 1`,
`⌊log₂ q⌋ = natLog2 (a * 2^k / b) - k`. -/
def floorLog2 (q : ℚ) : ℤ :=
  let a := q.num.toNat
  let b := q.den
  let k := natLog2 b + 1
  (natLog2 (a * 2 ^ k / b) : ℤ) - (k : ℤ)

theorem pow_div_le_div_iff (a b u v : ℕ) (hb : 0 < b) :
    ((2 : ℚ) ^ ((u : ℤ) - (v : ℤ)) ≤ (a : ℚ) / (b : ℚ)) ↔ 2 ^ u * b ≤ a * 2 ^ v := by
  have hb' : (0 : ℚ) < (b : ℚ) := by exact_mod_cast hb
  have h2v : (0 : ℚ) < (2 : ℚ) ^ (v : ℕ) := by positivity
  rw [zpow_sub₀ (by norm_num : (2 : ℚ) ≠ 0), zpow_natCast, zpow_natCast]
  rw [div_le_div_iff h2v hb']
  constructor
  · intro h
    exact_mod_cast h
  · intro h
    exact_mod_cast h

theorem div_lt_pow_div_iff (a b u v : ℕ) (hb : 0 < b) :
    ((a : ℚ) / (b : ℚ) < (2 : ℚ) ^ ((u : ℤ) - (v : ℤ))) ↔ a * 2 ^ v < 2 ^ u * b := by
  have hb' : (0 : ℚ) < (b : ℚ) := by exact_mod_cast hb
  have h2v : (0 : ℚ) < (2 : ℚ) ^ (v : ℕ) := by positivity
  rw [zpow_sub₀ (by norm_num : (2 : ℚ) ≠ 0), zpow_natCast, zpow_natCast]
  rw [div_lt_div_iff hb' h2v]
  constructor
  · intro h
    exact_mod_cast h
  · intro h
    exact_mod_cast h

theorem floorLog2_spec (q : ℚ) (hq : 0 < q) :
    (2 : ℚ) ^ floorLog2 q ≤ q ∧ q < (2 : ℚ) ^ (floorLog2 q + 1) := by
  set a := q.num.toNat with ha
  set b := q.den with hbdef
  have hb : 0 < b := q.pos
  have hapos : 0 < a := by
    have := Rat.num_pos.mpr hq
    omega
  set k := natLog2 b + 1 with hk
  have hbk : b < 2 ^ k := by
    have h := (natLog2_spec b hb).2
    rw [← hk] at h
    exact h
  have hN : 0 < a * 2 ^ k / b :=
    Nat.div_pos (le_trans (le_of_lt hbk) (Nat.le_mul_of_pos_left _ hapos)) hb
  set e := natLog2 (a * 2 ^ k / b) with he
  have hspec := natLog2_spec _ hN
  have hql : (2 : ℚ) ^ ((e : ℤ) - (k : ℤ)) ≤ (a : ℚ) / (b : ℚ) := by
    rw [pow_div_le_div_iff a b e k hb]
    have : 2 ^ e ≤ a * 2 ^ k / b := hspec.1
    rw [Nat.le_div_iff_mul_le hb] at this
    omega
  have hqr : (a : ℚ) / (b : ℚ) < (2 : ℚ) ^ (((e + 1 : ℕ) : ℤ) - (k : ℤ)) := by
    rw [div_lt_pow_div_iff a b (e + 1) k hb]
    have : a * 2 ^ k / b < 2 ^ (e + 1) := hspec.2
    rw [Nat.div_lt_iff_lt_mul hb] at this
    omega
  have hqeq : (a : ℚ) / (b : ℚ) = q := by
    rw [ha, hbdef]
    have hnum : ((q.num.toNat : ℤ)) = q.num := by
      have := Rat.num_pos.mpr hq
      omega
    rw [show ((q.num.toNat : ℚ)) = ((q.num.toNat : ℤ) : ℚ) by push_cast; ring]
    rw [hnum]
    exact Rat.num_div_den q
  rw [hqeq] at hql hqr
  have hfl : floorLog2 q = (e : ℤ) - (k : ℤ) := by
    simp only [floorLog2]
  constructor
  · rw [hfl]; exact hql
  · rw [hfl]
    have : ((e : ℤ) - (k : ℤ)) + 1 = ((e + 1 : ℕ) : ℤ) - (k : ℤ) := by push_cast; ring
    rw [this]
    exact hqr

/-- Uniqueness: any exponent bracketing `q` is `floorLog2 q`. -/
theorem floorLog2_eq_of (q : ℚ) (e : ℤ) (h1 : (2 : ℚ) ^ e ≤ q) (h2 : q < 2 ^ (e + 1)) :
    floorLog2 q = e := by
  have hq : 0 < q := lt_of_lt_of_le (zpow_pos (by norm_num) e) h1
  obtain ⟨hl, hr⟩ := floorLog2_spec q hq
  by_contra hne
  rcases lt_or_gt_of_ne hne with hlt | hgt
  · have : floorLog2 q + 1 ≤ e := by omega
    have hmono : (2 : ℚ) ^ (floorLog2 q + 1) ≤ 2 ^ e :=
      zpow_le_zpow_right₀ (by norm_num) this
    linarith
  · have : e + 1 ≤ floorLog2 q := by omega
    have hmono : (2 : ℚ) ^ (e + 1) ≤ 2 ^ floorLog2 q :=
      zpow_le_zpow_right₀ (by norm_num) this
    linarith

/-- Round to nearest integer, ties to even. -/
def rne (r : ℚ) : ℤ :=
  let f := ⌊r⌋
  if r - f < 1 / 2 then f
  else if 1 / 2 < r - f then f + 1
  else if f % 2 = 0 then f else f + 1

/-- Rounding of a positive rational in the normal range to the nearest
IEEE-754 binary64 value (ties to even). -/
def roundPos (q : ℚ) : ℚ :=
  (rne (q / 2 ^ (floorLog2 q - 52)) : ℚ) * 2 ^ (floorLog2 q - 52)

/-- Correct rounding of a rational to binary64, the semantics of both
CPython's int-to-float conversion and of every individual float
arithmetic operation. -/
def roundDouble (q : ℚ) : ℚ :=
  if q = 0 then 0
  else if 0 < q then roundPos q
  else -roundPos (-q)

/-- The binary64 value of the Python literal `1e18` (it is exactly
`10^18`, proved in `float1e18_eq`). -/
def float1e18 : ℚ := roundDouble ((10 : ℚ) ^ 18)

/-- Float division `x / y` of two binary64 values: the exact quotient,
correctly rounded. -/
def pyDivDouble (x y : ℚ) : ℚ := roundDouble (x / y)

theorem rne_eq_of (r : ℚ) (m : ℤ) (h1 : (m : ℚ) ≤ r) (h2 : r < m + 1 / 2) :
    rne r = m := by
  have hf : ⌊r⌋ = m := by
    rw [Int.floor_eq_iff]
    constructor
    · exact h1
    · linarith
  simp only [rne, hf]
  rw [if_pos]
  linarith

theorem rne_intCast (m : ℤ) : rne (m : ℚ) = m :=
  rne_eq_of _ m le_rfl (by norm_num)

theorem roundPos_eq_of (q : ℚ) (e m : ℤ)
    (h1 : (2 : ℚ) ^ e ≤ q) (h2 : q < 2 ^ (e + 1))
    (hm : rne (q / 2 ^ (e - 52)) = m) :
    roundPos q = m * 2 ^ (e - 52) := by
  rw [roundPos, floorLog2_eq_of q e h1 h2, hm]

theorem roundDouble_of_pos (q : ℚ) (h : 0 < q) : roundDouble q = roundPos q := by
  rw [roundDouble, if_neg (by linarith), if_pos h]

theorem roundDouble_zero : roundDouble 0 = 0 := by
  rw [roundDouble, if_pos rfl]

/-- Integers below `2^53` convert to binary64 exactly. -/
theorem roundDouble_natCast_exact (n : ℕ) (h : n < 2 ^ 53) :
    roundDouble (n : ℚ) = n := by
  rcases Nat.eq_zero_or_pos n with hz | hpos
  · subst hz
    simp [roundDouble_zero]
  · have hq : (0 : ℚ) < n := by exact_mod_cast hpos
    rw [roundDouble_of_pos _ hq]
    set e := floorLog2 (n : ℚ) with he
    obtain ⟨hl, hr⟩ := floorLog2_spec (n : ℚ) hq
    have he0 : 0 ≤ e := by
      by_contra hneg
      have h1 : e + 1 ≤ 0 := by omega
      have : (2 : ℚ) ^ (e + 1) ≤ 2 ^ (0 : ℤ) := zpow_le_zpow_right₀ (by norm_num) h1
      have h2 : (1 : ℚ) ≤ n := by exact_mod_cast hpos
      rw [zpow_zero] at this
      linarith
    have he52 : e ≤ 52 := by
      by_contra hgt
      have h1 : (53 : ℤ) ≤ e := by omega
      have : (2 : ℚ) ^ (53 : ℤ) ≤ 2 ^ e := zpow_le_zpow_right₀ (by norm_num) h1
      have h2 : (n : ℚ) < 2 ^ (53 : ℤ) := by
        rw [show (53 : ℤ) = ((53 : ℕ) : ℤ) from rfl, zpow_natCast]
        exact_mod_cast h
      linarith
    set s := (52 - e).toNat with hs
    have hse : (s : ℤ) = 52 - e := by omega
    have hdiv : (n : ℚ) / 2 ^ (e - 52) = ((n * 2 ^ s : ℕ) : ℚ) := by
      rw [show (e - 52 : ℤ) = -(s : ℤ) by omega]
      rw [zpow_neg, div_eq_mul_inv, inv_inv, zpow_natCast]
      push_cast
      ring
    have hrne : rne ((n : ℚ) / 2 ^ (e - 52)) = ((n * 2 ^ s : ℕ) : ℤ) := by
      rw [hdiv]
      rw [show (((n * 2 ^ s : ℕ) : ℚ)) = (((n * 2 ^ s : ℕ) : ℤ) : ℚ) by push_cast; ring]
      exact rne_intCast _
    rw [roundPos_eq_of (n : ℚ) e _ hl hr hrne]
    push_cast
    rw [show (e - 52 : ℤ) = -(s : ℤ) by omega]
    rw [zpow_neg, zpow_natCast]
    field_simp

theorem roundDouble_1e18 : roundDouble ((10 : ℚ) ^ 18) = 10 ^ 18 := by
  rw [roundDouble_of_pos _ (by norm_num),
    roundPos_eq_of _ 59 7812500000000000 (by norm_num) (by norm_num)
      (rne_eq_of _ _ (by norm_num) (by norm_num))]
  norm_num

theorem float1e18_eq : float1e18 = 10 ^ 18 := by
  rw [float1e18]
  exact roundDouble_1e18

/-- `10^18 + 1` is not representable in binary64: it rounds to `10^18`
(the unit in the last place there is `2^7 = 128`). -/
theorem roundDouble_1e18_add_one : roundDouble ((10 : ℚ) ^ 18 + 1) = 10 ^ 18 := by
  rw [roundDouble_of_pos _ (by norm_num),
    roundPos_eq_of _ 59 7812500000000000 (by norm_num) (by norm_num)
      (rne_eq_of _ _ (by norm_num) (by norm_num))]
  norm_num

theorem roundDouble_one : roundDouble 1 = 1 := by
  have h := roundDouble_natCast_exact 1 (by norm_num)
  simpa using h

/-!
## Wei-to-ETH conversion (`wei_to_eth`)

Two variants exist in the source.  `transform_logs.py`:

    def wei_to_eth(wei):
        if wei is None: return None
        return wei / 1e18

`transform_transactions.py`:

    def wei_to_eth(wei_val):
        if pd.isna(wei_val): return 0.0
        return float(wei_val) / 1e18

Both divide in binary64 floating point: the integer argument is converted
to the nearest double and divided by the double `1e18` (exactly `10^18`),
with the quotient rounded again.
-/

namespace TransformLogs

/-- Embedding of `wei_to_eth` from `transform_logs.py` (`None → None`,
otherwise binary64 division by `1e18`). -/
def wei_to_eth (wei : Option ℕ) : Option ℚ :=
  match wei with
  | none => none
  | some w => some (pyDivDouble (roundDouble (w : ℚ)) float1e18)

end TransformLogs

namespace TransformTransactions

/-- Embedding of `wei_to_eth` from `transform_transactions.py`
(`NaN → 0.0`, otherwise binary64 division by `1e18`). -/
def wei_to_eth (wei : Option ℤ) : Option ℚ :=
  match wei with
  | none => some 0
  | some w => some (pyDivDouble (roundDouble (w : ℚ)) float1e18)

end TransformTransactions

/-- C5 counterexample: `wei_to_eth` does not preserve full 18-decimal
fixed-point precision and is not a high-precision decimal division:
`10^18 + 1` wei converts to exactly `1.0` ETH, not to the exact value
`(10^18 + 1) / 10^18`; moreover the `transform_transactions.py` variant
maps a null input to `0.0`, not to null. -/
theorem wei_to_eth_precision_counterexample :
    TransformLogs.wei_to_eth (some (10 ^ 18 + 1)) = some 1
      ∧ (1 : ℚ) ≠ ((10 : ℚ) ^ 18 + 1) / 10 ^ 18
      ∧ TransformTransactions.wei_to_eth none = some 0 := by
  refine ⟨?_, ?_, rfl⟩
  · simp only [TransformLogs.wei_to_eth]
    have hc : ((10 ^ 18 + 1 : ℕ) : ℚ) = 10 ^ 18 + 1 := by push_cast; ring
    rw [hc, roundDouble_1e18_add_one, float1e18_eq, pyDivDouble,
      div_self (by norm_num : (10 : ℚ) ^ 18 ≠ 0), roundDouble_one]
  · intro h
    rw [eq_div_iff (by norm_num : (10 : ℚ) ^ 18 ≠ 0)] at h
    norm_num at h

/-- C5 amended: `wei_to_eth` divides by `1e18` in binary64 floating point
(not a high-precision decimal): `10^18` wei maps to exactly `1.0` ETH and
`0` wei to `0.0`; the `transform_logs.py` variant maps a null input to
null, while the `transform_transactions.py` variant maps it to `0.0`;
values needing more than 53 bits round, e.g. `10^18 + 1` wei also maps to
exactly `1.0` ETH. -/
theorem wei_to_eth_amended :
    TransformLogs.wei_to_eth (some (10 ^ 18)) = some 1
      ∧ TransformLogs.wei_to_eth (some 0) = some 0
      ∧ TransformLogs.wei_to_eth none = none
      ∧ TransformLogs.wei_to_eth (some (10 ^ 18 + 1)) = some 1
      ∧ TransformTransactions.wei_to_eth none = some 0 := by
  refine ⟨?_, ?_, rfl, ?_, rfl⟩
  · simp only [TransformLogs.wei_to_eth]
    have hc : ((10 ^ 18 : ℕ) : ℚ) = 10 ^ 18 := by push_cast; ring
    rw [hc, roundDouble_1e18, float1e18_eq, pyDivDouble,
      div_self (by norm_num : (10 : ℚ) ^ 18 ≠ 0), roundDouble_one]
  · simp only [TransformLogs.wei_to_eth]
    rw [Nat.cast_zero, roundDouble_zero, pyDivDouble, zero_div, roundDouble_zero]
  · simp only [TransformLogs.wei_to_eth]
    have hc : ((10 ^ 18 + 1 : ℕ) : ℚ) = 10 ^ 18 + 1 := by push_cast; ring
    rw [hc, roundDouble_1e18_add_one, float1e18_eq, pyDivDouble,
      div_self (by norm_num : (10 : ℚ) ^ 18 ≠ 0), roundDouble_one]

/-!
## Numeric field coercion (`hex_to_int`, src/src/transform/transform_transactions.py)

    def hex_to_int(hex_str):
        if pd.isna(hex_str): return 0
        str_val = str(hex_str).strip()
        if str_val == "0x" or str_val == "": return 0
        try:
            if str_val.lower().startswith("0x"): return int(str_val, 16)
            return int(float(str_val))
        except (ValueError, TypeError): return 0

The input is modelled as `Option (List Char)`: `none` is a missing
(`NaN`) value and already-numeric inputs reach the parser as their
`str()` rendering, i.e. as a decimal string.  `float(s)` is modelled for
finite decimal literals `[sign] (digits [. digits] | . digits)
[(e|E) [sign] digits]`, with the exact value rounded to binary64;
digit-group underscores and the non-finite literals `inf`/`infinity`/
`nan` are outside the model.  `int(float, base-16 strings)` and `strip`
follow CPython.
-/

/-- The whitespace characters removed by `str.strip()` that occur in this
development. -/
def isSpaceChar (ch : Char) : Bool :=
  ch == ' ' || ch == '\t' || ch == '\n' || ch == '\r'

/-- Model of `str.strip()`. -/
def pyStrip (s : List Char) : List Char :=
  ((s.dropWhile isSpaceChar).reverse.dropWhile isSpaceChar).reverse

/-- Value of a non-empty, all-digit string read in base 10. -/
def digitsVal (l : List Char) : ℕ :=
  l.foldl (fun acc ch => 10 * acc + (ch.toNat - 48)) 0

/-- ASCII decimal digit test (the digits accepted by the numeric
literals modelled here). -/
def isDigitChar (ch : Char) : Bool :=
  decide (48 ≤ ch.toNat ∧ ch.toNat ≤ 57)

/-- Leading-sign split: returns whether the value is negated and the rest
of the string. -/
def splitSign (s : List Char) : Bool × List Char :=
  match s with
  | [] => (false, [])
  | ch :: r =>
    if ch = '+' then (false, r)
    else if ch = '-' then (true, r)
    else (false, ch :: r)

/-- Mantissa of a decimal literal: `digits [. digits]` or `. digits`. -/
def parseMantissa (s : List Char) : Option ℚ :=
  let ip := s.takeWhile isDigitChar
  let rest := s.dropWhile isDigitChar
  match rest with
  | [] => if ip = [] then none else some ((digitsVal ip : ℕ) : ℚ)
  | '.' :: fp =>
    if fp.all isDigitChar = true ∧ (ip ≠ [] ∨ fp ≠ []) then
      some (((digitsVal ip : ℕ) : ℚ) + ((digitsVal fp : ℕ) : ℚ) / 10 ^ fp.length)
    else none
  | _ => none

/-- Exponent suffix of a decimal literal: empty, or `(e|E) [sign] digits`. -/
def parseExp (s : List Char) : Option ℤ :=
  match s with
  | [] => some 0
  | ch :: r =>
    if ch = 'e' ∨ ch = 'E' then
      let p := splitSign r
      if p.2 ≠ [] ∧ p.2.all isDigitChar = true then
        some (if p.1 then -((digitsVal p.2 : ℕ) : ℤ) else ((digitsVal p.2 : ℕ) : ℤ))
      else none
    else none

/-- Model of `float(s)` on finite decimal literals: the exact rational
value of the literal.  (The subsequent binary64 rounding is applied at
the use site, keeping this parser exact.) -/
def pyFloatOfString (s : List Char) : Option ℚ :=
  let p := splitSign s
  let mant := p.2.takeWhile (fun ch => !(ch == 'e' || ch == 'E'))
  let rest := p.2.dropWhile (fun ch => !(ch == 'e' || ch == 'E'))
  match parseMantissa mant, parseExp rest with
  | some m, some ex => some ((if p.1 then (-1 : ℚ) else 1) * m * 10 ^ ex)
  | _, _ => none

/-- `int()` applied to a float truncates toward zero. -/
def pyTrunc (q : ℚ) : ℤ := if q < 0 then ⌈q⌉ else ⌊q⌋

/-- `str_val.lower().startswith("0x")`. -/
def startsWith0x (s : List Char) : Bool :=
  match s with
  | c0 :: c1 :: _ => c0 == '0' && (c1 == 'x' || c1 == 'X')
  | _ => false

/-- Model of `int(s, 16)` for a string that starts with `0x`/`0X`:
the hex digits after the prefix, `ValueError` (`none`) if there are none
or a character is not a hex digit. -/
def pyIntBase16 (s : List Char) : Option ℕ :=
  match s with
  | c0 :: c1 :: rest =>
    if c0 = '0' ∧ (c1 = 'x' ∨ c1 = 'X') then pyIntHex rest else none
  | _ => none

/-- Embedding of `hex_to_int` from `transform_transactions.py`. -/
def hex_to_int (v : Option (List Char)) : ℤ :=
  match v with
  | none => 0
  | some s0 =>
    let s := pyStrip s0
    if s = ['0', 'x'] ∨ s = [] then 0
    else if startsWith0x s then
      match pyIntBase16 s with
      | some n => (n : ℤ)
      | none => 0
    else
      match pyFloatOfString s with
      | some q => pyTrunc (roundDouble q)
      | none => 0

theorem takeWhile_all_true {p : Char → Bool} :
    ∀ l : List Char, (∀ x ∈ l, p x = true) → l.takeWhile p = l := by
  intro l
  induction l with
  | nil => intro h; rfl
  | cons a l ih =>
    intro h
    rw [List.takeWhile_cons, h a (by simp)]
    rw [ih (fun x hx => h x (by simp [hx]))]
    simp

theorem dropWhile_all_true {p : Char → Bool} :
    ∀ l : List Char, (∀ x ∈ l, p x = true) → l.dropWhile p = [] := by
  intro l
  induction l with
  | nil => intro h; rfl
  | cons a l ih =>
    intro h
    rw [List.dropWhile_cons, h a (by simp)]
    simp only [if_true]
    exact ih (fun x hx => h x (by simp [hx]))

theorem dropWhile_all_false {p : Char → Bool} :
    ∀ l : List Char, (∀ x ∈ l, p x = false) → l.dropWhile p = l := by
  intro l
  cases l with
  | nil => intro h; rfl
  | cons a l =>
    intro h
    rw [List.dropWhile_cons, h a (by simp)]
    simp

theorem pyStrip_eq_self (l : List Char) (h : ∀ ch ∈ l, isSpaceChar ch = false) :
    pyStrip l = l := by
  rw [pyStrip, dropWhile_all_false l h,
    dropWhile_all_false l.reverse (fun ch hch => h ch (List.mem_reverse.mp hch)),
    List.reverse_reverse]

theorem isDigitChar_ne_sign {ch : Char} (h : isDigitChar ch = true) :
    ch ≠ '+' ∧ ch ≠ '-' ∧ ch ≠ 'e' ∧ ch ≠ 'E' ∧ ch ≠ 'x' ∧ ch ≠ 'X'
      ∧ isSpaceChar ch = false := by
  rw [isDigitChar, decide_eq_true_eq] at h
  refine ⟨?_, ?_, ?_, ?_, ?_, ?_, ?_⟩ <;>
    first
      | (intro he; subst he; exact absurd h (by decide))
      | (rw [isSpaceChar]
         have h32 : (ch == ' ') = false := by
           rw [beq_eq_false_iff_ne]
           intro he; subst he; exact absurd h (by decide)
         have h9 : (ch == '\t') = false := by
           rw [beq_eq_false_iff_ne]
           intro he; subst he; exact absurd h (by decide)
         have h10 : (ch == '\n') = false := by
           rw [beq_eq_false_iff_ne]
           intro he; subst he; exact absurd h (by decide)
         have h13 : (ch == '\r') = false := by
           rw [beq_eq_false_iff_ne]
           intro he; subst he; exact absurd h (by decide)
         rw [h32, h9, h10, h13]
         rfl)

theorem splitSign_digits (l : List Char) (hne : l ≠ [])
    (hd : ∀ x ∈ l, isDigitChar x = true) : splitSign l = (false, l) := by
  cases l with
  | nil => exact absurd rfl hne
  | cons a r =>
    have ha := isDigitChar_ne_sign (hd a (by simp))
    rw [splitSign]
    rw [if_neg ha.1, if_neg ha.2.1]

theorem pyFloatOfString_digits (l : List Char) (hne : l ≠ [])
    (hd : ∀ x ∈ l, isDigitChar x = true) :
    pyFloatOfString l = some ((digitsVal l : ℕ) : ℚ) := by
  have hsplit := splitSign_digits l hne hd
  have hmant : l.takeWhile (fun ch => !(ch == 'e' || ch == 'E')) = l := by
    apply takeWhile_all_true
    intro x hx
    have hne' := isDigitChar_ne_sign (hd x hx)
    have hxe : (x == 'e') = false := by rw [beq_eq_false_iff_ne]; exact hne'.2.2.1
    have hxE : (x == 'E') = false := by rw [beq_eq_false_iff_ne]; exact hne'.2.2.2.1
    rw [hxe, hxE]
    rfl
  have hrest : l.dropWhile (fun ch => !(ch == 'e' || ch == 'E')) = [] := by
    apply dropWhile_all_true
    intro x hx
    have hne' := isDigitChar_ne_sign (hd x hx)
    have hxe : (x == 'e') = false := by rw [beq_eq_false_iff_ne]; exact hne'.2.2.1
    have hxE : (x == 'E') = false := by rw [beq_eq_false_iff_ne]; exact hne'.2.2.2.1
    rw [hxe, hxE]
    rfl
  have hip : l.takeWhile isDigitChar = l :=
    takeWhile_all_true l (fun x hx => hd x hx)
  have hip2 : l.dropWhile isDigitChar = [] :=
    dropWhile_all_true l (fun x hx => hd x hx)
  simp only [pyFloatOfString, hsplit, hmant, hrest]
  simp only [parseMantissa, hip, hip2, if_neg hne, parseExp]
  simp [zpow_zero]

theorem startsWith0x_digits (l : List Char) (hd : ∀ x ∈ l, isDigitChar x = true) :
    startsWith0x l = false := by
  cases l with
  | nil => rfl
  | cons c0 r =>
    cases r with
    | nil => rfl
    | cons c1 r2 =>
      have h1 := isDigitChar_ne_sign (hd c1 (by simp))
      rw [startsWith0x]
      have hx : (c1 == 'x') = false := by rw [beq_eq_false_iff_ne]; exact h1.2.2.2.2.1
      have hX : (c1 == 'X') = false := by rw [beq_eq_false_iff_ne]; exact h1.2.2.2.2.2.1
      rw [hx, hX]
      simp

theorem pyTrunc_natCast (n : ℕ) : pyTrunc ((n : ℕ) : ℚ) = n := by
  rw [pyTrunc, if_neg (not_lt.mpr (by positivity))]
  exact_mod_cast Int.floor_natCast n

/-- `10^20 + 1` is not representable in binary64: it rounds to `10^20`
(the unit in the last place there is `2^14 = 16384`). -/
theorem roundDouble_1e20_add_one : roundDouble ((10 : ℚ) ^ 20 + 1) = 10 ^ 20 := by
  rw [roundDouble_of_pos _ (by norm_num),
    roundPos_eq_of _ 66 6103515625000000 (by norm_num) (by norm_num)
      (rne_eq_of _ _ (by norm_num) (by norm_num))]
  norm_num


/-- C9 amended: `hex_to_int` maps a missing value to `0`; decodes a
(case-insensitive) `0x`-prefixed string of hex digits as base 16; parses
any other value through `int(float(s))`, which is exact for decimal
integer strings below `2^53` but rounds larger values through binary64;
an unparseable value (no finite decimal literal, or invalid hex digits
after `0x`) yields `0` instead of failing the row. -/
theorem hex_to_int_spec :
    hex_to_int none = 0
      ∧ (∀ hs n, pyStrip ('0' :: 'x' :: hs) = '0' :: 'x' :: hs →
          pyIntHex hs = some n → hex_to_int (some ('0' :: 'x' :: hs)) = n)
      ∧ (∀ ds, ds ≠ [] → (∀ x ∈ ds, isDigitChar x = true) → digitsVal ds < 2 ^ 53 →
          hex_to_int (some ds) = digitsVal ds)
      ∧ (∀ s, pyFloatOfString (pyStrip s) = none → startsWith0x (pyStrip s) = false →
          hex_to_int (some s) = 0)
      ∧ (∀ hs, pyStrip ('0' :: 'x' :: hs) = '0' :: 'x' :: hs →
          pyIntHex hs = none → hex_to_int (some ('0' :: 'x' :: hs)) = 0) := by
  refine ⟨rfl, ?_, ?_, ?_, ?_⟩
  · intro hs n hstrip hparse
    have hne : hs ≠ [] := by
      intro h
      rw [h, pyIntHex, if_pos rfl] at hparse
      exact Option.noConfusion hparse
    simp only [hex_to_int, hstrip]
    rw [if_neg (by
      intro hor
      rcases hor with h1 | h1
      · simp at h1
        exact hne h1
      · exact List.noConfusion h1)]
    rw [if_pos (by rw [startsWith0x]; rfl)]
    rw [pyIntBase16, if_pos (by exact ⟨rfl, Or.inl rfl⟩), hparse]
  · intro ds hne hdig hsmall
    have hstrip : pyStrip ds = ds :=
      pyStrip_eq_self ds (fun ch hch => (isDigitChar_ne_sign (hdig ch hch)).2.2.2.2.2.2)
    simp only [hex_to_int, hstrip]
    rw [if_neg (by
      intro hor
      rcases hor with h1 | h1
      · have := hdig 'x' (by rw [h1]; simp)
        exact absurd this (by decide)
      · exact hne h1)]
    rw [startsWith0x_digits ds hdig]
    simp only [Bool.false_eq_true, if_false]
    rw [pyFloatOfString_digits ds hne hdig]
    show pyTrunc (roundDouble ((digitsVal ds : ℕ) : ℚ)) = ((digitsVal ds : ℕ) : ℤ)
    rw [roundDouble_natCast_exact _ hsmall, pyTrunc_natCast]
  · intro s hparse hsw
    simp only [hex_to_int]
    by_cases h0 : pyStrip s = ['0', 'x'] ∨ pyStrip s = []
    · rw [if_pos h0]
    · rw [if_neg h0, hsw]
      simp only [Bool.false_eq_true, if_false]
      rw [hparse]
  · intro hs hstrip hparse
    simp only [hex_to_int, hstrip]
    by_cases h0 : ('0' :: 'x' :: hs : List Char) = ['0', 'x'] ∨ ('0' :: 'x' :: hs : List Char) = []
    · rw [if_pos h0]
    · rw [if_neg h0]
      rw [if_pos (by rw [startsWith0x]; rfl)]
      rw [pyIntBase16, if_pos (by exact ⟨rfl, Or.inl rfl⟩), hparse]

/-- Witness for the amended C9: a missing value, valid hex `"0x1a"`, the
decimal string `"42"`, the unparseable string `"abc"`, and invalid hex
`"0xz"`. -/
theorem hex_to_int_spec_witness :
    hex_to_int none = 0
      ∧ hex_to_int (some ['0', 'x', '1', 'a']) = 26
      ∧ hex_to_int (some ['4', '2']) = 42
      ∧ hex_to_int (some ['a', 'b', 'c']) = 0
      ∧ hex_to_int (some ['0', 'x', 'z']) = 0 :=
  ⟨hex_to_int_spec.1,
    hex_to_int_spec.2.1 ['1', 'a'] 26 (by decide) (by decide),
    hex_to_int_spec.2.2.1 ['4', '2'] (by decide) (by decide) (by decide),
    hex_to_int_spec.2.2.2.1 ['a', 'b', 'c'] (by decide) (by decide),
    hex_to_int_spec.2.2.2.2 ['z'] (by decide) (by decide)⟩

/-- C9 counterexample: the decimal string `"100000000000000000001"`
(value `10^20 + 1`) is parseable, but `hex_to_int` returns `10^20`, not
the decimal number it denotes: `int(float(s))` rounds through binary64.
-/
theorem hex_to_int_large_decimal_counterexample :
    hex_to_int (some ('1' :: (List.replicate 19 '0' ++ ['1']))) = 10 ^ 20
      ∧ digitsVal ('1' :: (List.replicate 19 '0' ++ ['1'])) = 10 ^ 20 + 1
      ∧ ((10 : ℤ) ^ 20 ≠ 10 ^ 20 + 1) := by
  refine ⟨?_, by decide, by decide⟩
  have hne : ('1' :: (List.replicate 19 '0' ++ ['1']) : List Char) ≠ [] := by decide
  have hdig : ∀ x ∈ ('1' :: (List.replicate 19 '0' ++ ['1']) : List Char),
      isDigitChar x = true := by decide
  have hstrip : pyStrip ('1' :: (List.replicate 19 '0' ++ ['1'])) =
      '1' :: (List.replicate 19 '0' ++ ['1']) :=
    pyStrip_eq_self _ (fun ch hch => (isDigitChar_ne_sign (hdig ch hch)).2.2.2.2.2.2)
  simp only [hex_to_int, hstrip]
  rw [if_neg (by decide)]
  rw [startsWith0x_digits _ hdig]
  simp only [Bool.false_eq_true, if_false]
  rw [pyFloatOfString_digits _ hne hdig]
  have hval : digitsVal ('1' :: (List.replicate 19 '0' ++ ['1'])) = 10 ^ 20 + 1 := by
    decide
  rw [hval]
  have hcast : ((10 ^ 20 + 1 : ℕ) : ℚ) = 10 ^ 20 + 1 := by push_cast; ring
  show pyTrunc (roundDouble ((10 ^ 20 + 1 : ℕ) : ℚ)) = (10 : ℤ) ^ 20
  rw [hcast, roundDouble_1e20_add_one]
  rw [pyTrunc, if_neg (not_lt.mpr (by positivity))]
  rw [show ((10 : ℚ) ^ 20) = (((10 ^ 20 : ℤ) : ℚ)) by push_cast; ring]
  rw [Int.floor_intCast]

/-!
## Transaction deduplication (`transform_transactions`, src/src/transform/transform_transactions.py)

    initial_count = len(df)
    df = df.drop_duplicates(subset=['hash']).copy()
    ... (column conversions that never modify the hash column) ...

Rows are modelled as pairs `(hash, payload)`; `drop_duplicates` keeps the
first row for each hash value in order.  The subsequent column
transformations are an arbitrary function `g` on the payload, and the
reported removed count is `initial_count - len(df)`.
-/

/-- `drop_duplicates(subset=['hash'])`: keep each row whose hash has not
been seen in an earlier row. -/
def dedupByHashAux {α β : Type} [DecidableEq α] : List α → List (α × β) → List (α × β)
  | _, [] => []
  | seen, r :: rs =>
    if r.1 ∈ seen then dedupByHashAux seen rs
    else r :: dedupByHashAux (r.1 :: seen) rs

/-- First-occurrence deduplication on the hash column. -/
def dedupByHash {α β : Type} [DecidableEq α] (rows : List (α × β)) : List (α × β) :=
  dedupByHashAux [] rows

/-- Embedding of `transform_transactions`: deduplicate on the hash before
any other transformation, then transform the non-hash columns with `g`;
also return the reported removed count. -/
def transform_transactions {α β γ : Type} [DecidableEq α] (g : β → γ)
    (rows : List (α × β)) : List (α × γ) × ℕ :=
  ((dedupByHash rows).map (fun r => (r.1, g r.2)),
    rows.length - (dedupByHash rows).length)

theorem dedupByHashAux_mem {α β : Type} [DecidableEq α] :
    ∀ (l : List (α × β)) (seen : List α) (x : α),
      x ∈ (dedupByHashAux seen l).map Prod.fst ↔
        x ∈ l.map Prod.fst ∧ x ∉ seen := by
  intro l
  induction l with
  | nil => intro seen x; simp [dedupByHashAux]
  | cons r rs ih =>
    intro seen x
    rw [dedupByHashAux]
    by_cases hmem : r.1 ∈ seen
    · rw [if_pos hmem, ih]
      simp only [List.map_cons, List.mem_cons]
      constructor
      · intro ⟨h1, h2⟩
        exact ⟨Or.inr h1, h2⟩
      · intro ⟨h1, h2⟩
        rcases h1 with h1 | h1
        · subst h1
          exact absurd hmem h2
        · exact ⟨h1, h2⟩
    · rw [if_neg hmem]
      simp only [List.map_cons, List.mem_cons, ih, List.mem_cons]
      constructor
      · intro h
        rcases h with h | ⟨h1, h2⟩
        · subst h
          exact ⟨Or.inl rfl, hmem⟩
        · exact ⟨Or.inr h1, fun hc => h2 (Or.inr hc)⟩
      · intro ⟨h1, h2⟩
        rcases h1 with h1 | h1
        · exact Or.inl h1
        · by_cases hx : x = r.1
          · exact Or.inl hx
          · exact Or.inr ⟨h1, fun hc => (by
              rcases hc with hc | hc
              · exact hx hc
              · exact h2 hc)⟩

theorem dedupByHashAux_nodup {α β : Type} [DecidableEq α] :
    ∀ (l : List (α × β)) (seen : List α),
      ((dedupByHashAux seen l).map Prod.fst).Nodup := by
  intro l
  induction l with
  | nil => intro seen; simp [dedupByHashAux]
  | cons r rs ih =>
    intro seen
    rw [dedupByHashAux]
    by_cases hmem : r.1 ∈ seen
    · rw [if_pos hmem]
      exact ih seen
    · rw [if_neg hmem]
      simp only [List.map_cons, List.nodup_cons]
      constructor
      · intro hc
        have := (dedupByHashAux_mem rs (r.1 :: seen) r.1).mp hc
        exact this.2 (by simp)
      · exact ih (r.1 :: seen)

theorem dedupByHash_map_fst_toFinset {α β : Type} [DecidableEq α] (rows : List (α × β)) :
    ((dedupByHash rows).map Prod.fst).toFinset = (rows.map Prod.fst).toFinset := by
  apply Finset.ext
  intro x
  simp only [List.mem_toFinset]
  rw [dedupByHash, dedupByHashAux_mem]
  simp

theorem dedupByHash_length {α β : Type} [DecidableEq α] (rows : List (α × β)) :
    (dedupByHash rows).length = (rows.map Prod.fst).dedup.length := by
  have h1 : ((dedupByHash rows).map Prod.fst).length = (dedupByHash rows).length :=
    List.length_map _ _
  have h2 : ((dedupByHash rows).map Prod.fst).toFinset.card
      = ((dedupByHash rows).map Prod.fst).length :=
    List.toFinset_card_of_nodup (dedupByHashAux_nodup rows [])
  have h3 : ((rows.map Prod.fst).dedup).toFinset.card = (rows.map Prod.fst).dedup.length :=
    List.toFinset_card_of_nodup (List.nodup_dedup _)
  have h4 : ((rows.map Prod.fst).dedup).toFinset = (rows.map Prod.fst).toFinset := by
    apply Finset.ext
    intro x
    simp [List.mem_dedup]
  rw [← h1, ← h2, dedupByHash_map_fst_toFinset, ← h4, h3]

/-- C6: the transform deduplicates on the hash column before any other
transformation: the output has exactly one row per distinct input hash
(its hash column is duplicate-free and covers exactly the input hashes),
the output length is the number of distinct hashes, and the reported
removed count is `N` minus the number of distinct hashes. -/
theorem transform_transactions_dedup {α β γ : Type} [DecidableEq α]
    (g : β → γ) (rows : List (α × β)) :
    (((transform_transactions g rows).1.map Prod.fst).Nodup)
      ∧ (∀ x, x ∈ (transform_transactions g rows).1.map Prod.fst ↔
          x ∈ rows.map Prod.fst)
      ∧ (transform_transactions g rows).1.length = (rows.map Prod.fst).dedup.length
      ∧ (transform_transactions g rows).2
          = rows.length - (rows.map Prod.fst).dedup.length := by
  have hmapfst : (transform_transactions g rows).1.map Prod.fst
      = (dedupByHash rows).map Prod.fst := by
    rw [transform_transactions, List.map_map]
    rfl
  refine ⟨?_, ?_, ?_, ?_⟩
  · rw [hmapfst]
    exact dedupByHashAux_nodup rows []
  · intro x
    rw [hmapfst, dedupByHash, dedupByHashAux_mem]
    simp
  · rw [transform_transactions]
    simp only [List.length_map]
    exact dedupByHash_length rows
  · rw [transform_transactions]
    simp only
    rw [dedupByHash_length rows]

/-!
## Paginated fetch with retries (`get_transactions`,
src/src/extract/extract_transactions_from_lineascan.py, and
`get_logs_for_range`, src/src/extract/extract_logs_from_etherscan.py)

Network interaction is modelled by an oracle giving, for each page and
each attempt, the outcome of one HTTP request: the status code and
either the parsed JSON body or `none` (an empty/unparseable body or a
raised request exception).  The body carries `ok` (`status == "1"`) and
the result batch.  Both functions are embedded as their list of returned
records together with the list of retry-backoff sleep durations they
perform (`time.sleep((attempt + 1) * 2)`); the fixed inter-page
`REQUEST_DELAY` sleeps are not part of the retry schedule and are not
recorded.  The pagination loop is given fuel; every theorem supplies
enough fuel for the scenario it describes.

`get_transactions` retries (up to `max_retries` attempts in total) on a
non-200 status, an empty body, a JSON decode error or a request
exception, and on exhaustion returns the transactions accumulated so
far.  `get_logs_for_range` wraps only the request/parse in its retry
loop: a raised exception (network error, empty or malformed body) is
retried, but the HTTP status code is never examined; a non-200 response
whose body still parses falls through to the `status != "1"` check and
ends the query immediately, returning the logs accumulated so far.
-/

/-- Parsed JSON body of one API response. -/
structure ApiBody (α : Type) where
  ok : Bool
  batch : List α
deriving DecidableEq

/-- Outcome of one HTTP request: status code, and the parsed body or
`none` when the request raises or the body does not parse. -/
structure ApiAttempt (α : Type) where
  code : ℕ
  body : Option (ApiBody α)
deriving DecidableEq

/-- The condition under which `get_transactions` treats an attempt as a
transient failure: non-200 status, or no parseable body. -/
def attemptFails {α : Type} (a : ApiAttempt α) : Bool :=
  a.code != 200 || a.body.isNone

/-- The linear backoff schedule `[2, 4, ..., 2 * k]`. -/
def backoff (k : ℕ) : List ℕ := (List.range k).map (fun i => (i + 1) * 2)

/-- Retry loop of `get_transactions` (attempt index `i`, `r` attempts
remaining): returns the first parsed 200 body, or `none` after
exhausting the attempts, together with the sleeps performed. -/
def retryGoTx {α : Type} (att : ℕ → ApiAttempt α) : ℕ → ℕ → Option (ApiBody α) × List ℕ
  | _, 0 => (none, [])
  | i, r + 1 =>
    if attemptFails (att i) then
      if r = 0 then (none, [])
      else ((retryGoTx att (i + 1) r).1, (i + 1) * 2 :: (retryGoTx att (i + 1) r).2)
    else ((att i).body, [])

/-- Pagination loop of `get_transactions`: accumulates batches, stops on
retry exhaustion (returning the partial result), on `status != "1"`, on
an empty batch, or on a batch shorter than the page size 1000. -/
def getTxGo {α : Type} (oracle : ℕ → ℕ → ApiAttempt α) (m : ℕ) :
    ℕ → ℕ → List α → List α × List ℕ
  | 0, _, acc => (acc, [])
  | fuel + 1, page, acc =>
    match retryGoTx (oracle page) 0 m with
    | (none, sl) => (acc, sl)
    | (some b, sl) =>
      if b.ok = false then (acc, sl)
      else if b.batch.isEmpty then (acc, sl)
      else if b.batch.length < 1000 then (acc ++ b.batch, sl)
      else
        ((getTxGo oracle m fuel (page + 1) (acc ++ b.batch)).1,
          sl ++ (getTxGo oracle m fuel (page + 1) (acc ++ b.batch)).2)

/-- Embedding of `get_transactions` (pages start at 1, empty
accumulator). -/
def get_transactions {α : Type} (oracle : ℕ → ℕ → ApiAttempt α) (m fuel : ℕ) :
    List α × List ℕ :=
  getTxGo oracle m fuel 1 []

/-- Retry loop of `get_logs_for_range`: only a missing/unparseable body
(a raised exception) is retried; the status code is never examined. -/
def retryGoLogs {α : Type} (att : ℕ → ApiAttempt α) : ℕ → ℕ → Option (ApiBody α) × List ℕ
  | _, 0 => (none, [])
  | i, r + 1 =>
    match (att i).body with
    | some b => (some b, [])
    | none =>
      if r = 0 then (none, [])
      else ((retryGoLogs att (i + 1) r).1, (i + 1) * 2 :: (retryGoLogs att (i + 1) r).2)

/-- Pagination loop of `get_logs_for_range`. -/
def getLogsGo {α : Type} (oracle : ℕ → ℕ → ApiAttempt α) (m : ℕ) :
    ℕ → ℕ → List α → List α × List ℕ
  | 0, _, acc => (acc, [])
  | fuel + 1, page, acc =>
    match retryGoLogs (oracle page) 0 m with
    | (none, sl) => (acc, sl)
    | (some b, sl) =>
      if b.ok = false then (acc, sl)
      else if b.batch.isEmpty then (acc, sl)
      else if b.batch.length < 1000 then (acc ++ b.batch, sl)
      else
        ((getLogsGo oracle m fuel (page + 1) (acc ++ b.batch)).1,
          sl ++ (getLogsGo oracle m fuel (page + 1) (acc ++ b.batch)).2)

/-- Embedding of `get_logs_for_range` (pages start at 1, empty
accumulator). -/
def get_logs_for_range {α : Type} (oracle : ℕ → ℕ → ApiAttempt α) (m fuel : ℕ) :
    List α × List ℕ :=
  getLogsGo oracle m fuel 1 []

theorem retryGoTx_all_fail {α : Type} (att : ℕ → ApiAttempt α) :
    ∀ r i, (∀ j, j < r → attemptFails (att (i + j)) = true) →
      retryGoTx att i r = (none, (List.range (r - 1)).map (fun j => (i + j + 1) * 2)) := by
  intro r
  induction r with
  | zero => intro i h; rfl
  | succ r ih =>
    intro i h
    have h0 : attemptFails (att i) = true := by
      have := h 0 (by omega)
      rwa [Nat.add_zero] at this
    rw [retryGoTx, if_pos h0]
    by_cases hr : r = 0
    · subst hr
      rw [if_pos rfl]
      rfl
    · rw [if_neg hr]
      have hrec := ih (i + 1) (by
        intro j hj
        have := h (j + 1) (by omega)
        rwa [show i + (j + 1) = i + 1 + j by ring] at this)
      rw [hrec]
      obtain ⟨r', rfl⟩ := Nat.exists_eq_succ_of_ne_zero hr
      simp only [Nat.succ_sub_one]
      rw [List.range_succ_eq_map, List.map_cons, List.map_map]
      apply congrArg (Prod.mk (none : Option (ApiBody α)))
      have hfun : ((fun j => (i + j + 1) * 2) ∘ Nat.succ) = (fun j => (i + 1 + j + 1) * 2) := by
        funext j
        simp only [Function.comp_apply, Nat.succ_eq_add_one]
        ring
      rw [hfun]

theorem retryGoLogs_all_fail {α : Type} (att : ℕ → ApiAttempt α) :
    ∀ r i, (∀ j, j < r → (att (i + j)).body = none) →
      retryGoLogs att i r = (none, (List.range (r - 1)).map (fun j => (i + j + 1) * 2)) := by
  intro r
  induction r with
  | zero => intro i h; rfl
  | succ r ih =>
    intro i h
    have h0 : (att i).body = none := by
      have := h 0 (by omega)
      rwa [Nat.add_zero] at this
    rw [retryGoLogs]
    rw [h0]
    by_cases hr : r = 0
    · subst hr
      rw [if_pos rfl]
      rfl
    · rw [if_neg hr]
      have hrec := ih (i + 1) (by
        intro j hj
        have := h (j + 1) (by omega)
        rwa [show i + (j + 1) = i + 1 + j by ring] at this)
      rw [hrec]
      obtain ⟨r', rfl⟩ := Nat.exists_eq_succ_of_ne_zero hr
      simp only [Nat.succ_sub_one]
      rw [List.range_succ_eq_map, List.map_cons, List.map_map]
      apply congrArg (Prod.mk (none : Option (ApiBody α)))
      have hfun : ((fun j => (i + j + 1) * 2) ∘ Nat.succ) = (fun j => (i + 1 + j + 1) * 2) := by
        funext j
        simp only [Function.comp_apply, Nat.succ_eq_add_one]
        ring
      rw [hfun]

theorem getTxGo_partial {α : Type} (oracle : ℕ → ℕ → ApiAttempt α) (m fuel page : ℕ)
    (acc : List α) (hfail : ∀ i, i < m → attemptFails (oracle page i) = true) :
    getTxGo oracle m (fuel + 1) page acc = (acc, backoff (m - 1)) := by
  have hretry := retryGoTx_all_fail (oracle page) m 0 (by
    intro j hj
    rw [Nat.zero_add]
    exact hfail j hj)
  simp only [getTxGo, hretry, backoff]
  apply congrArg (Prod.mk acc)
  apply List.map_congr_left
  intro j hj
  ring

theorem getLogsGo_partial {α : Type} (oracle : ℕ → ℕ → ApiAttempt α) (m fuel page : ℕ)
    (acc : List α) (hfail : ∀ i, i < m → (oracle page i).body = none) :
    getLogsGo oracle m (fuel + 1) page acc = (acc, backoff (m - 1)) := by
  have hretry := retryGoLogs_all_fail (oracle page) m 0 (by
    intro j hj
    rw [Nat.zero_add]
    exact hfail j hj)
  simp only [getLogsGo, hretry, backoff]
  apply congrArg (Prod.mk acc)
  apply List.map_congr_left
  intro j hj
  ring

theorem getLogsGo_status_break {α : Type} (oracle : ℕ → ℕ → ApiAttempt α)
    (m fuel page : ℕ) (acc : List α) (b : ApiBody α) (hm : 0 < m)
    (hbody : (oracle page 0).body = some b) (hok : b.ok = false) :
    getLogsGo oracle m (fuel + 1) page acc = (acc, []) := by
  obtain ⟨m', rfl⟩ := Nat.exists_eq_succ_of_ne_zero (Nat.pos_iff_ne_zero.mp hm)
  have hretry : retryGoLogs (oracle page) 0 (m' + 1) = (some b, []) := by
    rw [retryGoLogs, hbody]
  simp only [getLogsGo, hretry]
  rw [if_pos hok]

/-- C7 amended: `get_transactions` retries every transient failure
(non-200 status, empty body, malformed payload, network error) up to
`max_retries` attempts with linear backoff `attempt index * 2`, and on
exhaustion returns the records accumulated so far as a partial result;
`get_logs_for_range` applies the same backoff and partial-result policy,
but only to raised exceptions (network errors, empty or unparseable
bodies): it never inspects the HTTP status code, and a non-200 response
with a parseable non-success body ends the query immediately, without
any retry, returning the records accumulated so far. -/
theorem paginated_fetch_retry_spec :
    (∀ (α : Type) (oracle : ℕ → ℕ → ApiAttempt α) (m fuel page : ℕ) (acc : List α),
        (∀ i, i < m → attemptFails (oracle page i) = true) →
        getTxGo oracle m (fuel + 1) page acc = (acc, backoff (m - 1)))
      ∧ (∀ (α : Type) (oracle : ℕ → ℕ → ApiAttempt α) (m fuel page : ℕ) (acc : List α),
          (∀ i, i < m → (oracle page i).body = none) →
          getLogsGo oracle m (fuel + 1) page acc = (acc, backoff (m - 1)))
      ∧ (∀ (α : Type) (oracle : ℕ → ℕ → ApiAttempt α) (m fuel page : ℕ) (acc : List α)
          (b : ApiBody α), 0 < m →
          (oracle page 0).body = some b → b.ok = false →
          getLogsGo oracle m (fuel + 1) page acc = (acc, [])) :=
  ⟨fun _ oracle m fuel page acc hfail => getTxGo_partial oracle m fuel page acc hfail,
    fun _ oracle m fuel page acc hfail => getLogsGo_partial oracle m fuel page acc hfail,
    fun _ oracle m fuel page acc b hm hbody hok =>
      getLogsGo_status_break oracle m fuel page acc b hm hbody hok⟩

/-- Witness for the amended C7: with `max_retries = 3` and prior records
`[7]`, a page whose three attempts all return HTTP 500 makes
`get_transactions` sleep `[2, 4]` and return `[7]`; three raised
exceptions make `get_logs_for_range` do the same; a single parsed
non-200 failure body makes `get_logs_for_range` return `[7]` with no
retry sleep at all. -/
theorem paginated_fetch_retry_spec_witness :
    getTxGo (fun _ _ => ApiAttempt.mk 500 (some (ApiBody.mk false ([] : List ℕ)))) 3 1 1 [7]
        = ([7], backoff 2)
      ∧ getLogsGo (fun _ _ => ApiAttempt.mk 200 (none : Option (ApiBody ℕ))) 3 1 1 [7]
        = ([7], backoff 2)
      ∧ getLogsGo (fun _ _ => ApiAttempt.mk 500 (some (ApiBody.mk false ([] : List ℕ)))) 3 1 1 [7]
        = ([7], []) :=
  ⟨paginated_fetch_retry_spec.1 ℕ _ 3 0 1 [7] (by decide),
    paginated_fetch_retry_spec.2.1 ℕ _ 3 0 1 [7] (by decide),
    paginated_fetch_retry_spec.2.2 ℕ _ 3 0 1 [7] (ApiBody.mk false []) (by decide)
      (by decide) (by decide)⟩

/-- C7 counterexample: under identical non-200 responses with parseable
bodies, `get_transactions` retries with backoff `[2, 4]` but
`get_logs_for_range` performs no retry at all (no backoff sleeps), ending
the query at once — so the claim that a paginated fetch retries a
non-200 status up to `max_retries` times is false for
`get_logs_for_range`. -/
theorem get_logs_for_range_non200_counterexample :
    get_logs_for_range (fun _ _ => ApiAttempt.mk 500 (some (ApiBody.mk false ([] : List ℕ)))) 3 5
        = ([], [])
      ∧ get_transactions (fun _ _ => ApiAttempt.mk 500 (some (ApiBody.mk false ([] : List ℕ)))) 3 5
        = ([], [2, 4]) := by
  constructor
  · rfl
  · rfl

/-!
## Bulk load per chain (`load_all_parquet_files_to_raw_tables`,
src/load_logs_processed_to_database.py; `truncate_table`,
src/src/load/load_to_database.py)

A psycopg2 connection with `autocommit = False` is modelled as the
durable table contents plus an optional open transaction holding the
in-transaction view of the table.  `commit()` makes the transaction view
durable (a no-op when no transaction is open), `rollback()` discards it.

Statements run through `execStmt`.  The server grammar is not modelled
in full; a statement fails exactly when it violates one of two necessary
parse conditions, which decide every statement this module issues: a
statement text whose parentheses do not balance does not parse (none of
the texts issued here places a parenthesis inside a quoted literal
before the point of imbalance), and a `COPY` whose column list is empty
(`COPY t () FROM STDIN`) is a grammar error, since `COPY` requires at
least one column name inside the parentheses.

Two such failures occur unconditionally in this module:

  * `create_raw_table` interpolates a CREATE TABLE whose column list is
    opened and never closed, running into pasted prose (source lines
    50-57; the string is quoted verbatim in `create_sql_tail` below and
    has two opening and one closing parenthesis), so
    `cur.execute(create_sql)` always raises; the per-chain handler then
    does `conn.rollback(); continue`, skipping the chain before its
    truncate;
  * `load_parquet_to_raw_copy` builds its COPY from the module-level
    `columns = []`, an empty column list, so for a non-empty file the
    COPY always raises (an IndexError while deriving the filename
    columns can raise even earlier, with the same no-effect outcome);
    for an empty file the function returns before reaching the COPY.

For one chain the source performs:

    try: create_raw_table(conn, t)          # DDL ... conn.commit()
    except Exception: conn.rollback(); continue
    try: truncate_raw_table(conn, t)        # TRUNCATE ... conn.commit()
    except Exception: conn.rollback(); continue
    for p_file in chain_files:
        try: load_parquet_to_raw_copy(conn, p_file, t)  # COPY ... conn.commit()
        except Exception: conn.rollback()   # skip the file, keep going
    conn.commit()

`truncate_raw_table` here and `truncate_table` in load_to_database.py
have identical bodies (TRUNCATE then `conn.commit()`); one embedding
stands for both.
-/

/-- A psycopg2 connection: the durable table contents and the open
transaction view of the table, if a transaction is open. -/
structure PgConn (ρ : Type) where
  durable : List ρ
  txn : Option (List ρ)
deriving DecidableEq

/-- The table as the next statement sees it. -/
def curView {ρ : Type} (c : PgConn ρ) : List ρ := c.txn.getD c.durable

/-- Execute a row-effect: opens a transaction if none is open and
applies the effect to the in-transaction view. -/
def execSql {ρ : Type} (f : List ρ → List ρ) (c : PgConn ρ) : PgConn ρ :=
  PgConn.mk c.durable (some (f (curView c)))

/-- `conn.commit()`. -/
def commitTx {ρ : Type} (c : PgConn ρ) : PgConn ρ := PgConn.mk (curView c) none

/-- `conn.rollback()`. -/
def rollbackTx {ρ : Type} (c : PgConn ρ) : PgConn ρ := PgConn.mk c.durable none

/-- Number of occurrences of a character. -/
def countChar (ch : Char) (s : List Char) : ℕ :=
  (s.filter (fun c => c = ch)).length

/-- Necessary parse condition: the parentheses of the statement text
balance.  (Only the `= false` direction is used: such a text is always a
syntax error for the statements issued here.) -/
def parenOk (s : String) : Bool :=
  countChar '(' s.data == countChar ')' s.data

/-- The statements the load module issues, at the granularity the
embedding needs: free-form DDL with its SQL text, TRUNCATE, and COPY
with an explicit column list. -/
inductive SqlStmt (ρ : Type) where
  | ddl (sql : String)
  | truncateSt
  | copySt (cols : List String) (rows : List ρ)

/-- Execution of one statement: a DDL text that cannot parse raises and
has no effect; TRUNCATE empties the in-transaction view; COPY appends
its rows, but raises if its column list is empty. -/
def execStmt {ρ : Type} (st : SqlStmt ρ) (c : PgConn ρ) : Except Unit (PgConn ρ) :=
  match st with
  | SqlStmt.ddl sql => if parenOk sql then Except.ok (execSql id c) else Except.error ()
  | SqlStmt.truncateSt => Except.ok (execSql (fun _ => []) c)
  | SqlStmt.copySt cols rows =>
    if cols.isEmpty then Except.error ()
    else Except.ok (execSql (fun t => t ++ rows) c)

/-- The part of `create_sql` before the interpolated table name. -/
def create_sql_head : String :=
  "\n    CREATE SCHEMA IF NOT EXISTS raw;\n    CREATE TABLE IF NOT EXISTS raw."

/-- The part of `create_sql` after the interpolated table name, quoted
verbatim from source lines 52-57: the column list opens and is followed
by pasted prose instead of columns and a closing parenthesis. -/
def create_sql_tail : String :=
  " (\n    ...Look at the project context architecture and tell me what\x27s better:\n1. Load raw files to Postgres\n2. First transform them (converting hex into human-readable format) and then load them into Postgres\nExplain only, don\x27t create any files.\n    "

/-- The f-string built by `create_raw_table`, with the table name
substituted. -/
def create_raw_table_sql (table_name : String) : String :=
  create_sql_head ++ table_name ++ create_sql_tail

/-- Embedding of `create_raw_table`: execute `create_sql`, then commit. -/
def create_raw_table {ρ : Type} (table_name : String) (c : PgConn ρ) :
    Except Unit (PgConn ρ) :=
  match execStmt (SqlStmt.ddl (create_raw_table_sql table_name)) c with
  | Except.error e => Except.error e
  | Except.ok c2 => Except.ok (commitTx c2)

/-- Embedding of `truncate_raw_table` (and of the identical
`truncate_table`): TRUNCATE, then commit its own transaction. -/
def truncate_raw_table {ρ : Type} (c : PgConn ρ) : Except Unit (PgConn ρ) :=
  match execStmt (SqlStmt.truncateSt : SqlStmt ρ) c with
  | Except.error e => Except.error e
  | Except.ok c2 => Except.ok (commitTx c2)

/-- The module-level `columns = [ ]` list that `load_parquet_to_raw_copy`
joins into its COPY statement: it is empty. -/
def load_copy_columns : List String := []

/-- Embedding of `load_parquet_to_raw_copy`: an empty file returns
before any COPY; otherwise COPY the rows with `load_copy_columns` as the
column list, then commit. -/
def load_parquet_to_raw_copy {ρ : Type} (c : PgConn ρ) (rows : List ρ) :
    Except Unit (PgConn ρ) :=
  if rows.isEmpty then Except.ok c
  else
    match execStmt (SqlStmt.copySt load_copy_columns rows) c with
    | Except.error e => Except.error e
    | Except.ok c2 => Except.ok (commitTx c2)

/-- Embedding of the per-chain body of
`load_all_parquet_files_to_raw_tables`: create (skip the chain on
failure), truncate (skip on failure), then one COPY per file with
rollback on a failed file, and the final commit after the loop. -/
def load_files_for_chain {ρ : Type} (table_name : String) (c : PgConn ρ)
    (files : List (List ρ)) : PgConn ρ :=
  match create_raw_table table_name c with
  | Except.error _ => rollbackTx c
  | Except.ok c1 =>
    match truncate_raw_table c1 with
    | Except.error _ => rollbackTx c1
    | Except.ok c2 =>
      commitTx
        (files.foldl
          (fun st rows =>
            match load_parquet_to_raw_copy st rows with
            | Except.ok st2 => st2
            | Except.error _ => rollbackTx st)
          c2)

theorem string_data_append (a b : String) : (a ++ b).data = a.data ++ b.data := rfl

theorem countChar_append (ch : Char) (a b : List Char) :
    countChar ch (a ++ b) = countChar ch a + countChar ch b := by
  simp [countChar, List.filter_append]

/-- The interpolated create statement never parses: its parentheses are
unbalanced for any table name that contains none (the names used are of
the form `<chain>_logs_processed`). -/
theorem create_raw_table_sql_unbalanced (t : String)
    (h1 : countChar '(' t.data = 0) (h2 : countChar ')' t.data = 0) :
    parenOk (create_raw_table_sql t) = false := by
  have hdata : (create_raw_table_sql t).data
      = create_sql_head.data ++ (t.data ++ create_sql_tail.data) := by
    rw [create_raw_table_sql, string_data_append, string_data_append,
      List.append_assoc]
  rw [parenOk, hdata, countChar_append, countChar_append, countChar_append,
    countChar_append, h1, h2]
  decide

/-- `create_raw_table` always raises. -/
theorem create_raw_table_fails {ρ : Type} (t : String)
    (h1 : countChar '(' t.data = 0) (h2 : countChar ')' t.data = 0)
    (c : PgConn ρ) : create_raw_table t c = Except.error () := by
  have hexec : execStmt (SqlStmt.ddl (create_raw_table_sql t)) c = Except.error () := by
    simp only [execStmt, create_raw_table_sql_unbalanced t h1 h2]
    simp
  rw [create_raw_table, hexec]

/-- `load_parquet_to_raw_copy` raises for every non-empty file: its COPY
column list is empty. -/
theorem load_parquet_to_raw_copy_fails {ρ : Type} (c : PgConn ρ) (rows : List ρ)
    (h : rows ≠ []) : load_parquet_to_raw_copy c rows = Except.error () := by
  cases rows with
  | nil => exact absurd rfl h
  | cons a rs => rfl

/-- `truncate_raw_table` commits the emptied table immediately, in its
own transaction. -/
theorem truncate_raw_table_commits {ρ : Type} (c : PgConn ρ) :
    truncate_raw_table c = Except.ok (PgConn.mk ([] : List ρ) none) := rfl

/-- The whole per-chain run is skipped at the create step: prior durable
data survives untouched and no transaction stays open. -/
theorem load_files_for_chain_skips {ρ : Type} (t : String)
    (h1 : countChar '(' t.data = 0) (h2 : countChar ')' t.data = 0)
    (c : PgConn ρ) (files : List (List ρ)) :
    load_files_for_chain t c files = PgConn.mk c.durable none := by
  rw [load_files_for_chain, create_raw_table_fails t h1 h2 c]
  rfl

/-- C2 amended: `load_all_parquet_files_to_raw_tables` performs no
partition-wide transaction at all.  The table-ensure step executes a
malformed CREATE TABLE (its column list is never closed and runs into
pasted prose), so it always raises and every chain is rolled back and
skipped before its truncate: the destination tables keep their prior
contents and no batch is ever appended.  The individual steps each
commit their own transaction when they do run: `truncate_raw_table`
(and the identical `truncate_table`) commits the emptied table
immediately, and `load_parquet_to_raw_copy` would commit per file — but
its COPY names an empty column list, so it raises for every non-empty
file and no batch (in particular no partial batch) is ever committed. -/
theorem load_all_parquet_files_chain_spec :
    (∀ (ρ : Type) (t : String) (c : PgConn ρ) (files : List (List ρ)),
        countChar '(' t.data = 0 → countChar ')' t.data = 0 →
        load_files_for_chain t c files = PgConn.mk c.durable none)
      ∧ (∀ (ρ : Type) (c : PgConn ρ) (rows : List ρ), rows ≠ [] →
          load_parquet_to_raw_copy c rows = Except.error ())
      ∧ (∀ (ρ : Type) (c : PgConn ρ),
          truncate_raw_table c = Except.ok (PgConn.mk ([] : List ρ) none)) :=
  ⟨fun _ t c files h1 h2 => load_files_for_chain_skips t h1 h2 c files,
    fun _ c rows h => load_parquet_to_raw_copy_fails c rows h,
    fun _ c => truncate_raw_table_commits c⟩

/-- Witness for the amended C2 at a concrete chain: a run over one table
with prior row `5` and files `[[1], [2, 3]]` ends with row `5` intact
and nothing loaded; a direct non-empty COPY raises; a direct truncate
commits the empty table at once. -/
theorem load_all_parquet_files_chain_spec_witness :
    load_files_for_chain "eth_logs_processed" (PgConn.mk [5] none) [[1], [2, 3]]
        = PgConn.mk [(5 : ℕ)] none
      ∧ load_parquet_to_raw_copy (PgConn.mk [(5 : ℕ)] none) [7] = Except.error ()
      ∧ truncate_raw_table (PgConn.mk [(5 : ℕ)] none) = Except.ok (PgConn.mk [] none) :=
  ⟨load_all_parquet_files_chain_spec.1 ℕ "eth_logs_processed" (PgConn.mk [5] none)
      [[1], [2, 3]] (by decide) (by decide),
    load_all_parquet_files_chain_spec.2.1 ℕ (PgConn.mk [5] none) [7] (by decide),
    load_all_parquet_files_chain_spec.2.2 ℕ (PgConn.mk [5] none)⟩

/-- C2 counterexample: a chain whose table already holds a row `0` and
whose file list is `[[1, 2]]` ends the run with the durable table still
`[0]`: the load neither reaches its truncate nor appends any batch, so
the table is not left in a post-truncate empty state and no single
partition-wide transaction of ensure, truncate and appends ever
happens. -/
theorem load_all_parquet_files_chain_counterexample :
    load_files_for_chain "linea_logs_processed" (PgConn.mk [0] none) [[1, 2]]
        = PgConn.mk [(0 : ℕ)] none
      ∧ PgConn.mk [(0 : ℕ)] none ≠ PgConn.mk ([] : List ℕ) none := by
  constructor
  · rfl
  · decide

/-!
## Reconciliation checks (`validate_transactions`,
src/src/transform/validate_transformed_transactions.py)

A pandas frame is modelled as the list of columns it has plus its rows,
each row a function from column to optional cell value (`none` is NaN).
Only the columns the validator touches are modelled: `hash`,
`block_number`, `from`, `value_eth`, `gas_price_gwei`.

The function accumulates an `errors` list: check 1 (row count, tolerating
a difference explained by raw duplicate hashes), check 3 (missing or
null critical columns), check 4 (negative `value_eth` / negative
`gas_price_gwei`).  Check 2 (duplicate hashes in the processed frame)
and check 5 (block range) only print: they never append to `errors`.
The returned verdict is `errors == []`.
-/

/-- The columns consulted by `validate_transactions`. -/
inductive VCol where
  | hashC
  | blockC
  | fromC
  | valueC
  | gasC
deriving DecidableEq

/-- A cell value: a string or a number. -/
inductive PVal where
  | s (v : String)
  | n (v : ℚ)
deriving DecidableEq

/-- A pandas data frame restricted to the modelled columns. -/
structure PandasFrame where
  cols : List VCol
  rows : List (VCol → Option PVal)

/-- A whole column of a frame. -/
def getCol (df : PandasFrame) (c : VCol) : List (Option PVal) :=
  df.rows.map (fun r => r c)

/-- `df.duplicated(subset=["hash"]).sum()`: rows minus distinct values. -/
def dupCount (l : List (Option PVal)) : ℕ := l.length - l.dedup.length

/-- `df[col].isnull().sum()`. -/
def countNulls (l : List (Option PVal)) : ℕ :=
  (l.filter (fun v => v.isNone)).length

/-- `(df[col] < 0).sum()` (a NaN or string cell compares false). -/
def countNeg (l : List (Option PVal)) : ℕ :=
  (l.filter (fun v =>
    match v with
    | some (PVal.n q) => decide (q < 0)
    | _ => false)).length

/-- Embedding of `validate_transactions`: the returned pass/fail verdict.
The duplicate-hash count of the processed frame (check 2) and the block
range (check 5) are printed by the source but never added to `errors`,
so they do not appear in the verdict. -/
def validate_transactions (draw dp : PandasFrame) : Bool :=
  let e1 : List String :=
    if draw.rows.length = dp.rows.length then []
    else if draw.rows.length - dupCount (getCol draw VCol.hashC) = dp.rows.length then []
    else ["row count mismatch"]
  let e3 : List String :=
    ([VCol.hashC, VCol.blockC, VCol.fromC, VCol.valueC].map (fun col =>
      if col ∈ dp.cols then
        (if countNulls (getCol dp col) = 0 then ([] : List String) else ["nulls"])
      else ["missing column"])).flatten
  let e4a : List String :=
    if VCol.valueC ∈ dp.cols then
      (if countNeg (getCol dp VCol.valueC) = 0 then [] else ["negative values"])
    else []
  let e4b : List String :=
    if VCol.gasC ∈ dp.cols then
      (if countNeg (getCol dp VCol.gasC) = 0 then [] else ["negative gas"])
    else []
  (e1 ++ e3 ++ e4a ++ e4b).isEmpty

/-- C10: the verdict of `validate_transactions` depends only on the
row-count, missing-column, null, negative-value and gas-price checks:
whenever those pass, it returns `true` — with no condition at all on
duplicate hashes in the processed data. -/
theorem validate_transactions_ignores_duplicates (draw dp : PandasFrame)
    (hlen : draw.rows.length = dp.rows.length)
    (hcols : ∀ c, c ∈ [VCol.hashC, VCol.blockC, VCol.fromC, VCol.valueC] → c ∈ dp.cols)
    (hnulls : ∀ c, c ∈ [VCol.hashC, VCol.blockC, VCol.fromC, VCol.valueC] →
      countNulls (getCol dp c) = 0)
    (hneg1 : countNeg (getCol dp VCol.valueC) = 0)
    (hneg2 : countNeg (getCol dp VCol.gasC) = 0) :
    validate_transactions draw dp = true := by
  have h1 := hcols VCol.hashC (by simp)
  have h2 := hcols VCol.blockC (by simp)
  have h3 := hcols VCol.fromC (by simp)
  have h4 := hcols VCol.valueC (by simp)
  have n1 := hnulls VCol.hashC (by simp)
  have n2 := hnulls VCol.blockC (by simp)
  have n3 := hnulls VCol.fromC (by simp)
  have n4 := hnulls VCol.valueC (by simp)
  simp only [validate_transactions, if_pos hlen, List.map_cons, List.map_nil,
    if_pos h1, if_pos h2, if_pos h3, if_pos h4, if_pos n1, if_pos n2, if_pos n3,
    if_pos n4, if_pos hneg1, if_pos hneg2]
  simp

/-- A processed row with well-formed critical fields. -/
def sampleRow : VCol → Option PVal := fun c =>
  match c with
  | VCol.hashC => some (PVal.s "a")
  | VCol.blockC => some (PVal.n 1)
  | VCol.fromC => some (PVal.s "w")
  | VCol.valueC => some (PVal.n 1)
  | VCol.gasC => some (PVal.n 1)

/-- A raw frame with two rows. -/
def sampleFrameRaw : PandasFrame :=
  PandasFrame.mk [VCol.hashC] [sampleRow, sampleRow]

/-- A processed frame with two rows carrying the same hash `"a"`. -/
def sampleFrameProcessed : PandasFrame :=
  PandasFrame.mk [VCol.hashC, VCol.blockC, VCol.fromC, VCol.valueC, VCol.gasC]
    [sampleRow, sampleRow]

/-- Witness for C10: a processed frame with a duplicated hash on which
`validate_transactions` nevertheless returns `true`. -/
theorem validate_transactions_ignores_duplicates_witness :
    0 < dupCount (getCol sampleFrameProcessed VCol.hashC)
      ∧ validate_transactions sampleFrameRaw sampleFrameProcessed = true :=
  ⟨by decide,
    validate_transactions_ignores_duplicates sampleFrameRaw sampleFrameProcessed
      (by decide) (by decide) (by decide) (by decide) (by decide)⟩
